import Mathlib

/-!
Shallow embedding of the makeChaff repository (Go).

The repository contains the primary program `chaff.go` together with a
cosmetic variant (src/unnamed/part_000, identical control flow, colored
output) and a low-level syscall variant (src/unnamed/part_001) whose
`shredFile` differs behaviourally.  I/O effects (file creation, chunk
writes, the randomness source, fsync, close, remove) are modelled by an
explicit environment of oracles; loops are modelled with a fuel
parameter and return `none` when the fuel is exhausted, so that every
definition is executable.  uint64 subtraction is modelled by `usub`
(two's-complement wrap); in every theorem the subtrahend is shown to be
bounded so the wrap never fires.

Go's `os.File.Write` (via internal/poll.FD.Write) loops until either the
whole buffer is written or an error occurs, so at the Go level a chunk
write either writes the full requested count (`WriteRes.ok` with the
returned count) or returns a non-nil error (`WriteRes.fail`; the code in
`generateChaffFile` discards the partial count on the error path).  The
raw `unix.Write` used by the low-level variant can return a short count
without an error, which the oracle type also represents as `.ok n` with
`n` smaller than the request.
-/

namespace MakeChaff

/-- Fixed chunk size used by both the generator and the shredder
(chaff.go line 59 and line 102): 1 MiB. -/
def chunkSize : Nat := 1024 * 1024

/-- Low-space threshold used by main (chaff.go line 240): 10 MiB. -/
def lowSpace : Nat := 10 * 1024 * 1024

/-- Per-file target size used by main (chaff.go line 199), in MB. -/
def fileSizeMB : Nat := 100

/-- Modulus of the Go uint64 type. -/
def U64 : Nat := 2 ^ 64

/-- uint64 subtraction with two's-complement wrap (for a, b < 2^64). -/
def usub (a b : Nat) : Nat := if b ≤ a then a - b else a + U64 - b

/-- Result of one chunk write as seen by the Go code: `ok n` is a
return with nil error and count `n`; `fail` is a non-nil error return
(the partial count of a failed write is discarded by the callers). -/
inductive WriteRes where
  | ok (n : Nat)
  | fail
deriving DecidableEq

/-- Symbolic content of the 1 MiB buffer handed to a write: the 0xFF
fill, the 0x00 fill, or the k-th draw from the randomness source. -/
inductive Pat where
  | ff
  | zero
  | rnd (k : Nat)
deriving DecidableEq

/-- Observable filesystem events of a shred run, in program order.
`wrote p pat req n` records a chunk write of pass `p` with buffer
content `pat`, requested count `req` and returned count `n`;
`synced p` a completed fsync of pass `p`; `removed` the unlink. -/
inductive Ev where
  | seeked (pass : Nat)
  | wrote (pass : Nat) (pat : Pat) (req : Nat) (n : Nat)
  | synced (pass : Nat)
  | removed
deriving DecidableEq

/-- Bytes reported written by an event. -/
def evBytes : Ev → Nat
  | .wrote _ _ _ n => n
  | _ => 0

/-- Total bytes written in a trace. -/
def writesSum (t : List Ev) : Nat := (t.map evBytes).sum

/-- Number of completed fsyncs in a trace. -/
def syncCount (t : List Ev) : Nat :=
  t.countP fun e => match e with | .synced _ => true | _ => false

/-- Indices of the random draws appearing as write contents in a
trace, in order. -/
def rndIdxs (t : List Ev) : List Nat :=
  t.filterMap fun e => match e with
    | .wrote _ (.rnd k) _ _ => some k
    | _ => none

/-! ## generateChaffFile (chaff.go lines 40-97) -/

/-- Environment of oracles for one `generateChaffFile` call:
`createOk` the outcome of `os.Create`, `rand c` the outcome of the
c-th `rand.Read`, `write c r` the outcome of the c-th `file.Write`
with requested count `r`, `syncOk` the outcome of `file.Sync`. -/
structure GenEnv where
  createOk : Bool
  rand : Nat → Bool
  write : Nat → Nat → WriteRes
  syncOk : Bool

/-- Return value of `generateChaffFile`: the remaining-space and
bytes-written results, whether the error return was non-nil, and
whether `os.Create` was reached (a file now exists at the path). -/
structure GenOut where
  remaining : Nat
  written : Nat
  isErr : Bool
  fileCreated : Bool
deriving DecidableEq

/-- Chunk loop of generateChaffFile (chaff.go lines 62-88): while
`bytesWritten < sizeBytes`, generate a random chunk of
`min chunkSize (sizeBytes - bytesWritten)` bytes and write it; a
rand.Read or Write error aborts with the current count.  Fuel bounds
the number of iterations; `none` means the fuel ran out. -/
def genLoop (env : GenEnv) : Nat → Nat → Nat → Nat → Option (Nat × Bool)
  | 0, _, _, _ => none
  | fuel + 1, ctr, written, sizeBytes =>
    if written < sizeBytes then
      let currentChunk := min chunkSize (sizeBytes - written)
      if env.rand ctr = false then some (written, true)
      else
        match env.write ctr currentChunk with
        | .fail => some (written, true)
        | .ok n => genLoop env fuel (ctr + 1) (written + n) sizeBytes
    else
      some (written, false)

/-- generateChaffFile (chaff.go lines 40-97).  `sizeMB` is the target
size in MB, `availableSpace` the caller's space budget; the effective
size is capped at `availableSpace`, a zero effective size returns
immediately with no file, and the success path returns
`availableSpace - sizeBytes` (source line 96). -/
def generateChaffFile (env : GenEnv) (fuel : Nat) (sizeMB : Nat)
    (availableSpace : Nat) : Option GenOut :=
  let sizeBytes0 := (sizeMB * 1024 * 1024) % U64
  let sizeBytes := if sizeBytes0 > availableSpace then availableSpace else sizeBytes0
  if sizeBytes = 0 then some ⟨availableSpace, 0, false, false⟩
  else if env.createOk = false then some ⟨availableSpace, 0, true, false⟩
  else
    match genLoop env fuel 0 0 sizeBytes with
    | none => none
    | some (written, true) => some ⟨usub availableSpace written, written, true, true⟩
    | some (written, false) =>
      if env.syncOk = false then some ⟨usub availableSpace written, written, true, true⟩
      else some ⟨usub availableSpace sizeBytes, written, false, true⟩

/-- The Go io.Writer contract: a nil-error write returns at most the
requested count. -/
def GenEnv.wf (env : GenEnv) : Prop :=
  ∀ c r n, env.write c r = .ok n → n ≤ r

/-- All oracles succeed and every write is full. -/
def GenEnv.allOk (env : GenEnv) : Prop :=
  env.createOk = true ∧ env.syncOk = true ∧ (∀ c, env.rand c = true) ∧
    ∀ c r, env.write c r = .ok r

/-- Concrete fully-succeeding environment. -/
def okGenEnv : GenEnv := ⟨true, fun _ => true, fun _ r => .ok r, true⟩

/-- Environment in which the k-th chunk write fails (non-nil error)
and everything before it succeeds. -/
def failAt (k : Nat) : GenEnv :=
  ⟨true, fun _ => true, fun c r => if c = k then .fail else .ok r, true⟩

/-! ## shredFile (chaff.go lines 101-186) -/

/-- Environment of oracles for one `shredFile` call: outcomes of
os.OpenFile, f.Stat, the stat size, per-pass f.Seek, the c-th
rand.Read, the c-th f.Write with requested count, per-pass f.Sync,
f.Close and os.Remove. -/
structure ShredEnv where
  openOk : Bool
  statOk : Bool
  size : Nat
  seekOk : Nat → Bool
  rand : Nat → Bool
  write : Nat → Nat → WriteRes
  syncOk : Nat → Bool
  closeOk : Bool
  removeOk : Bool

/-- Result of a shredFile call: whether a non-nil error was returned,
and the trace of filesystem events in program order. -/
structure ShredOut where
  isErr : Bool
  trace : List Ev
deriving DecidableEq

/-- Buffer content written by pass p at chunk counter ctr, from the
switch at chaff.go lines 140-156: pass 0 fills 0xFF, pass 1 fills
0x00, pass 2 draws fresh random bytes for this chunk. -/
def patOf (p ctr : Nat) : Pat :=
  if p = 0 then .ff else if p = 1 then .zero else .rnd ctr

/-- Inner chunk loop of one shred pass (chaff.go lines 134-166): while
bytes remain, fill the buffer for this pass (drawing fresh randomness
on pass 2, aborting if the source fails), write
min(chunkSize, remaining) bytes, abort on a write error, and treat a
returned count different from the requested one as a fatal short
write.  The partial count of an error-return write is not traced, as
the code discards it.  Returns the next chunk counter, this pass's
events and the error flag; `none` means the fuel ran out. -/
def passLoop (env : ShredEnv) (p : Nat) :
    Nat → Nat → Nat → Option (Nat × List Ev × Bool)
  | 0, _, _ => none
  | fuel + 1, ctr, remaining =>
    if remaining = 0 then some (ctr, [], false)
    else
      let toWrite := min chunkSize remaining
      if p = 2 ∧ env.rand ctr = false then some (ctr, [], true)
      else
        match env.write ctr toWrite with
        | .fail => some (ctr, [], true)
        | .ok n =>
          if n ≠ toWrite then some (ctr, [Ev.wrote p (patOf p ctr) toWrite n], true)
          else
            match passLoop env p fuel (ctr + 1) (remaining - toWrite) with
            | none => none
            | some (c', evs, e) =>
              some (c', Ev.wrote p (patOf p ctr) toWrite n :: evs, e)

/-- One full shred pass (chaff.go lines 128-171): seek to offset 0
(abort on failure), run the chunk loop over the whole file size, then
fsync (abort on failure) before the next pass may start. -/
def shredPass (env : ShredEnv) (p ctr fuel : Nat) :
    Option (Nat × List Ev × Bool) :=
  if env.seekOk p = false then some (ctr, [], true)
  else
    match passLoop env p fuel ctr env.size with
    | none => none
    | some (c', evs, true) => some (c', Ev.seeked p :: evs, true)
    | some (c', evs, false) =>
      if env.syncOk p = false then some (c', Ev.seeked p :: evs, true)
      else some (c', Ev.seeked p :: (evs ++ [Ev.synced p]), false)

/-- shredFile (chaff.go lines 101-186).  An open or stat failure
triggers the fail-open `os.Remove` (lines 104-117) with the error
returned; an empty file is removed with no passes (lines 119-122);
otherwise the three passes 0xFF, 0x00, random run in order, each fully
flushed, and only after all three does close-then-remove run. -/
def shredFile (env : ShredEnv) (fuel : Nat) : Option ShredOut :=
  if env.openOk = false then
    some ⟨true, if env.removeOk then [Ev.removed] else []⟩
  else if env.statOk = false then
    some ⟨true, if env.removeOk then [Ev.removed] else []⟩
  else if env.size = 0 then
    if env.removeOk then some ⟨false, [Ev.removed]⟩ else some ⟨true, []⟩
  else
    match shredPass env 0 0 fuel with
    | none => none
    | some (c1, t0, e0) =>
      if e0 then some ⟨true, t0⟩
      else
        match shredPass env 1 c1 fuel with
        | none => none
        | some (c2, t1, e1) =>
          if e1 then some ⟨true, t0 ++ t1⟩
          else
            match shredPass env 2 c2 fuel with
            | none => none
            | some (_, t2, e2) =>
              if e2 then some ⟨true, t0 ++ t1 ++ t2⟩
              else if env.closeOk = false then some ⟨true, t0 ++ t1 ++ t2⟩
              else if env.removeOk = false then some ⟨true, t0 ++ t1 ++ t2⟩
              else some ⟨false, t0 ++ t1 ++ t2 ++ [Ev.removed]⟩

/-- All oracles of a shred environment succeed with full writes. -/
def ShredEnv.allOk (env : ShredEnv) : Prop :=
  env.openOk = true ∧ env.statOk = true ∧ (∀ p, env.seekOk p = true) ∧
    (∀ c, env.rand c = true) ∧ (∀ c r, env.write c r = .ok r) ∧
    (∀ p, env.syncOk p = true) ∧ env.closeOk = true ∧ env.removeOk = true

/-- Concrete fully-succeeding shred environment for a file of size n. -/
def okShredEnv (n : Nat) : ShredEnv :=
  ⟨true, true, n, fun _ => true, fun _ => true, fun _ r => .ok r,
    fun _ => true, true, true⟩

/-- Expected event list of one pass under a fully-succeeding
environment: full chunks of min(chunkSize, remaining) bytes, the pass
pattern drawn at the current chunk counter. -/
def mkPassEvs (p : Nat) : Nat → Nat → Nat → List Ev
  | 0, _, _ => []
  | fuel + 1, ctr, rem =>
    if rem = 0 then []
    else
      let t := min chunkSize rem
      Ev.wrote p (patOf p ctr) t t :: mkPassEvs p fuel (ctr + 1) (rem - t)

/-- Canonical successful trace of shredding a 5-byte file, up to but
not including the removal event. -/
def okTrace5 : List Ev :=
  [Ev.seeked 0, Ev.wrote 0 Pat.ff 5 5, Ev.synced 0,
   Ev.seeked 1, Ev.wrote 1 Pat.zero 5 5, Ev.synced 1,
   Ev.seeked 2, Ev.wrote 2 (Pat.rnd 2) 5 5, Ev.synced 2]

/-- Concrete environment refuting C1 as stated: a 5-byte file that
cannot be opened for writing, with os.Remove succeeding. -/
def openFailEnv : ShredEnv :=
  ⟨false, true, 5, fun _ => true, fun _ => true, fun _ r => .ok r,
    fun _ => true, true, true⟩

/-! ## Low-level variant shredFile (src/unnamed/part_001 lines 152-222) -/

namespace LL

/-- Environment of oracles for the low-level shredFile: unix.Open,
unix.Fstat, the stat size, readUrandom success by call counter, and
unix.Write results by write counter and requested count.  Seek, fsync,
close and unlink results are ignored by this variant, so they need no
oracles. -/
structure Env where
  openOk : Bool
  statOk : Bool
  size : Nat
  rand : Nat → Bool
  write : Nat → Nat → WriteRes

/-- Inner write loop of one low-level pass (part_001 lines 202-214):
while bytes remain, write min(chunkSize, remaining) bytes from the
pass buffer; only an error return aborts — a short count is not
checked, the loop simply subtracts the returned count and continues
from the advanced offset.  The buffer content `pat` is fixed for the
whole pass, as the buffer is filled once before the loop. -/
def passLoop (env : Env) (p : Nat) (pat : Pat) :
    Nat → Nat → Nat → Option (Nat × List Ev × Bool)
  | 0, _, _ => none
  | fuel + 1, wctr, remaining =>
    if remaining = 0 then some (wctr, [], false)
    else
      let toWrite := min chunkSize remaining
      match env.write wctr toWrite with
      | .fail => some (wctr, [], true)
      | .ok n =>
        match passLoop env p pat fuel (wctr + 1) (remaining - n) with
        | none => none
        | some (w', evs, e) => some (w', Ev.wrote p pat toWrite n :: evs, e)

/-- Low-level shredFile (part_001 lines 152-222).  Open or fstat
failure unlinks the file and returns the error; an empty file is
unlinked with nil error.  Each pass fills the whole 1 MiB buffer once
before its write loop: 0xFF, then 0x00, then a single readUrandom
call whose failure is silently ignored (line 191), leaving the stale
all-0x00 buffer as the "random" pass content.  Seek and fsync results
are ignored; after the three passes the file is closed and unlinked
unconditionally and nil is returned. -/
def shredFile (env : Env) (fuel : Nat) : Option ShredOut :=
  if env.openOk = false then some ⟨true, [Ev.removed]⟩
  else if env.statOk = false then some ⟨true, [Ev.removed]⟩
  else if env.size = 0 then some ⟨false, [Ev.removed]⟩
  else
    match passLoop env 0 Pat.ff fuel 0 env.size with
    | none => none
    | some (c1, t0, e0) =>
      if e0 then some ⟨true, Ev.seeked 0 :: t0⟩
      else
        match passLoop env 1 Pat.zero fuel c1 env.size with
        | none => none
        | some (c2, t1, e1) =>
          if e1 then
            some ⟨true, (Ev.seeked 0 :: t0 ++ [Ev.synced 0]) ++
              (Ev.seeked 1 :: t1)⟩
          else
            match passLoop env 2 (if env.rand 0 then Pat.rnd 0 else Pat.zero)
                fuel c2 env.size with
            | none => none
            | some (_, t2, e2) =>
              if e2 then
                some ⟨true, (Ev.seeked 0 :: t0 ++ [Ev.synced 0]) ++
                  (Ev.seeked 1 :: t1 ++ [Ev.synced 1]) ++ (Ev.seeked 2 :: t2)⟩
              else
                some ⟨false, (Ev.seeked 0 :: t0 ++ [Ev.synced 0]) ++
                  (Ev.seeked 1 :: t1 ++ [Ev.synced 1]) ++
                  (Ev.seeked 2 :: t2 ++ [Ev.synced 2]) ++ [Ev.removed]⟩

end LL

/-- Fully-succeeding environment for the low-level shredder. -/
def llOkEnv (n : Nat) : LL.Env :=
  ⟨true, true, n, fun _ => true, fun _ r => .ok r⟩

/-- Trace of the low-level shredder on a (2^20 + 1)-byte file with
all oracles succeeding: both chunks of pass 2 carry the same single
random draw. -/
def llReusedTrace : List Ev :=
  [Ev.seeked 0, Ev.wrote 0 Pat.ff 1048576 1048576, Ev.wrote 0 Pat.ff 1 1,
   Ev.synced 0,
   Ev.seeked 1, Ev.wrote 1 Pat.zero 1048576 1048576, Ev.wrote 1 Pat.zero 1 1,
   Ev.synced 1,
   Ev.seeked 2, Ev.wrote 2 (Pat.rnd 0) 1048576 1048576,
   Ev.wrote 2 (Pat.rnd 0) 1 1, Ev.synced 2,
   Ev.removed]

/-- Low-level environment whose raw unix.Write always reports one
byte written (a short count with no error). -/
def llShortEnv : LL.Env :=
  ⟨true, true, 2, fun _ => true, fun _ r => .ok (min 1 r)⟩

/-- Trace of the low-level shredder under `llShortEnv`: every pass
performs a short write of 1 of 2 requested bytes and simply continues
with the rest. -/
def llShortTrace : List Ev :=
  [Ev.seeked 0, Ev.wrote 0 Pat.ff 2 1, Ev.wrote 0 Pat.ff 1 1, Ev.synced 0,
   Ev.seeked 1, Ev.wrote 1 Pat.zero 2 1, Ev.wrote 1 Pat.zero 1 1, Ev.synced 1,
   Ev.seeked 2, Ev.wrote 2 (Pat.rnd 0) 2 1, Ev.wrote 2 (Pat.rnd 0) 1 1,
   Ev.synced 2, Ev.removed]

/-- Chaff.go environment whose file.Write reports one byte whatever
was requested (a short count). -/
def goShortEnv : ShredEnv :=
  ⟨true, true, 2, fun _ => true, fun _ => true, fun _ _ => .ok 1,
    fun _ => true, true, true⟩

/-- Low-level environment for a 5-byte file whose readUrandom always
fails while everything else succeeds. -/
def llEntropyFailEnv : LL.Env :=
  ⟨true, true, 5, fun _ => false, fun _ r => .ok r⟩

/-- Stale trace of the low-level shredder when the entropy source
fails: pass 2 writes the leftover all-0x00 buffer. -/
def llStaleTrace : List Ev :=
  [Ev.seeked 0, Ev.wrote 0 Pat.ff 5 5, Ev.synced 0,
   Ev.seeked 1, Ev.wrote 1 Pat.zero 5 5, Ev.synced 1,
   Ev.seeked 2, Ev.wrote 2 Pat.zero 5 5, Ev.synced 2, Ev.removed]

/-! ## The fill loop of main (chaff.go lines 224-276) -/

/-- File names produced by main: the zero-padded numbered series
chaff_NNNNNN.dat for counter k, and the sentinel chaff_FINAL.dat. -/
inductive FileName where
  | numbered (k : Nat)
  | final
deriving DecidableEq

/-- State at exit of the fill loop: tracked available space, the file
counter, and the created-file list as (name, bytes written) pairs in
append order. -/
structure FillOut where
  available : Nat
  fileCount : Nat
  created : List (FileName × Nat)
deriving DecidableEq

/-- Oracle environments for the successive generateChaffFile calls of
the fill loop, indexed by the file counter at the call site. -/
structure FillEnv where
  gen : Nat → GenEnv

/-- Fill loop of main (chaff.go lines 236-276): while space remains,
if under the 10 MiB threshold attempt one final 1 MB sentinel file
and break, appending it to the created list only when its byte count
is positive and no error occurred; otherwise attempt a 100 MB
numbered file, on error advance the counter and continue with the
space unchanged, on success append when bytes were written and shrink
the tracked space to the returned remainder. -/
def fillLoop (env : FillEnv) :
    Nat → Nat → Nat → List (FileName × Nat) → Option FillOut
  | 0, _, _, _ => none
  | fuel + 1, avail, count, created =>
    if avail = 0 then some ⟨avail, count, created⟩
    else if avail < lowSpace then
      match generateChaffFile (env.gen count) (avail + 1) 1 avail with
      | none => none
      | some out =>
        some ⟨out.remaining, count,
          if out.isErr = false ∧ 0 < out.written then
            created ++ [(FileName.final, out.written)]
          else created⟩
    else
      match generateChaffFile (env.gen count) (avail + 1) fileSizeMB avail with
      | none => none
      | some out =>
        if out.isErr then fillLoop env fuel avail (count + 1) created
        else
          fillLoop env fuel out.remaining (count + 1)
            (if 0 < out.written then
              created ++ [(FileName.numbered count, out.written)]
            else created)

/-- The fill loop from the initial state of main. -/
def fillRun (env : FillEnv) (fuel a : Nat) : Option FillOut :=
  fillLoop env fuel a 0 []

/-- All generator oracles of every iteration succeed. -/
def FillEnv.allOk (env : FillEnv) : Prop := ∀ i, (env.gen i).allOk

/-- Concrete fully-succeeding fill environment. -/
def okFillEnv : FillEnv := ⟨fun _ => okGenEnv⟩

/-! ## Theorems -/

namespace LL

/-- Every event of a low-level pass loop is a write of that pass
carrying the fixed pass buffer content. -/
theorem passLoop_pat (env : Env) (p : Nat) (pat : Pat) :
    ∀ fuel wctr rem c' evs e,
      passLoop env p pat fuel wctr rem = some (c', evs, e) →
      ∀ ev ∈ evs, ∃ r n, ev = Ev.wrote p pat r n := by
  intro fuel
  induction fuel with
  | zero => intro wctr rem c' evs e h; simp [passLoop] at h
  | succ fuel ih =>
    intro wctr rem c' evs e h
    by_cases hrem : rem = 0
    · simp only [passLoop, if_pos hrem, Option.some.injEq, Prod.mk.injEq] at h
      obtain ⟨rfl, rfl, rfl⟩ := h
      simp
    · simp only [passLoop, if_neg hrem] at h
      rcases hwr : env.write wctr (min chunkSize rem) with n | _
      · rw [hwr] at h
        dsimp only at h
        rcases hrec : passLoop env p pat fuel (wctr + 1) (rem - n)
          with _ | ⟨w', evs', e'⟩
        · rw [hrec] at h; cases h
        · rw [hrec] at h
          simp only [Option.some.injEq, Prod.mk.injEq] at h
          obtain ⟨rfl, rfl, rfl⟩ := h
          intro ev hev
          rcases List.mem_cons.mp hev with rfl | hev'
          · exact ⟨min chunkSize rem, n, rfl⟩
          · exact ih (wctr + 1) (rem - n) w' evs' e' hrec ev hev'
      · rw [hwr] at h
        simp only [Option.some.injEq, Prod.mk.injEq] at h
        obtain ⟨rfl, rfl, rfl⟩ := h
        simp

end LL

@[simp] theorem writesSum_nil : writesSum [] = 0 := rfl

@[simp] theorem writesSum_cons (e : Ev) (t : List Ev) :
    writesSum (e :: t) = evBytes e + writesSum t := by
  simp [writesSum]

@[simp] theorem writesSum_append (a b : List Ev) :
    writesSum (a ++ b) = writesSum a + writesSum b := by
  simp [writesSum]

@[simp] theorem syncCount_nil : syncCount [] = 0 := rfl

@[simp] theorem syncCount_append (a b : List Ev) :
    syncCount (a ++ b) = syncCount a + syncCount b := by
  simp [syncCount, List.countP_append]

theorem okGenEnv_allOk : okGenEnv.allOk :=
  ⟨rfl, rfl, fun _ => rfl, fun _ _ => rfl⟩

theorem okGenEnv_wf : okGenEnv.wf := by
  intro c r n h
  cases h
  exact Nat.le_refl r

theorem chunkSize_eq : chunkSize = 1048576 := rfl

/-- Under a fully-succeeding environment the chunk loop writes exactly
`sizeBytes` bytes and reports no error, for any sufficient fuel. -/
theorem genLoop_allOk (env : GenEnv) (h : env.allOk) :
    ∀ fuel ctr written sizeBytes, written ≤ sizeBytes →
      sizeBytes - written < fuel →
      genLoop env fuel ctr written sizeBytes = some (sizeBytes, false) := by
  intro fuel
  induction fuel with
  | zero => intro ctr written sizeBytes h1 h2; omega
  | succ fuel ih =>
    intro ctr written sizeBytes h1 h2
    by_cases hlt : written < sizeBytes
    · have hr := h.2.2.1 ctr
      have hw := h.2.2.2 ctr (min chunkSize (sizeBytes - written))
      simp only [genLoop, hlt, if_pos, hr, hw]
      have hc : chunkSize = 1048576 := rfl
      exact ih (ctr + 1) (written + min chunkSize (sizeBytes - written)) sizeBytes
        (by omega) (by omega)
    · have hw : written = sizeBytes := by omega
      simp [genLoop, hlt, hw]

/-- Monotone bounds on the chunk loop: the result count is between the
entry count and `sizeBytes`, and a nil-error exit means the loop wrote
the whole target. -/
theorem genLoop_bounds (env : GenEnv) (hwf : env.wf) :
    ∀ fuel ctr written sizeBytes w e, written ≤ sizeBytes →
      genLoop env fuel ctr written sizeBytes = some (w, e) →
      written ≤ w ∧ w ≤ sizeBytes ∧ (e = false → w = sizeBytes) := by
  intro fuel
  induction fuel with
  | zero => intro ctr written sizeBytes w e h1 h2; simp [genLoop] at h2
  | succ fuel ih =>
    intro ctr written sizeBytes w e h1 h2
    by_cases hlt : written < sizeBytes
    · simp only [genLoop, hlt, if_pos] at h2
      by_cases hr : env.rand ctr = false
      · simp only [hr, if_pos] at h2
        cases h2
        exact ⟨Nat.le_refl _, h1, by intro h; cases h⟩
      · simp only [hr, if_neg, Bool.not_eq_false] at h2
        rcases hwres : env.write ctr (min chunkSize (sizeBytes - written)) with n | _
        · rw [hwres] at h2
          have hn : n ≤ min chunkSize (sizeBytes - written) := hwf _ _ _ hwres
          have := ih (ctr + 1) (written + n) sizeBytes w e (by omega) h2
          exact ⟨by omega, this.2.1, this.2.2⟩
        · rw [hwres] at h2
          cases h2
          exact ⟨Nat.le_refl _, h1, by intro h; cases h⟩
    · simp only [genLoop, hlt, if_neg, if_false] at h2
      cases h2
      have hw : written = sizeBytes := by omega
      exact ⟨Nat.le_refl _, h1, fun _ => hw⟩

/-- Chunk loop of an environment whose k-th write fails while all
earlier writes are full: starting at counter ctr with ctr·chunkSize
bytes already written, the loop advances in full chunks until write k
returns its error, with exactly k·chunkSize bytes counted and no
further chunk processed. -/
theorem genLoop_fail_at (env : GenEnv) (k : Nat)
    (hrand : ∀ c, c ≤ k → env.rand c = true)
    (hbefore : ∀ c r, c < k → env.write c r = .ok r)
    (hfailk : ∀ r, env.write k r = .fail) :
    ∀ fuel ctr sizeBytes, ctr ≤ k → k - ctr < fuel →
      k * chunkSize < sizeBytes →
      genLoop env fuel ctr (ctr * chunkSize) sizeBytes =
        some (k * chunkSize, true) := by
  intro fuel
  induction fuel with
  | zero => intro ctr sizeBytes h1 h2 h3; omega
  | succ fuel ih =>
    intro ctr sizeBytes h1 h2 h3
    have hc : chunkSize = 1048576 := rfl
    have hlt : ctr * chunkSize < sizeBytes := by
      have : ctr * chunkSize ≤ k * chunkSize := Nat.mul_le_mul_right _ h1
      omega
    rcases Nat.lt_or_ge ctr k with hck | hck
    · have hmin : min chunkSize (sizeBytes - ctr * chunkSize) = chunkSize := by
        have h4 : (ctr + 1) * chunkSize ≤ k * chunkSize := Nat.mul_le_mul_right _ hck
        have h3' := h3
        rw [hc] at h4 h3'
        rw [hc]
        omega
      have hr := hrand ctr (by omega)
      have hw := hbefore ctr chunkSize hck
      have hstep : genLoop env (fuel + 1) ctr (ctr * chunkSize) sizeBytes =
          genLoop env fuel (ctr + 1) (ctr * chunkSize + chunkSize) sizeBytes := by
        simp [genLoop, hlt, hr, hmin, hw]
      rw [hstep, show ctr * chunkSize + chunkSize = (ctr + 1) * chunkSize by ring]
      exact ih (ctr + 1) sizeBytes (by omega) (by omega) h3
    · have hck' : ctr = k := by omega
      subst hck'
      simp [genLoop, hlt, hrand ctr (Nat.le_refl ctr), hfailk]

/-- Success of generateChaffFile under a fully-succeeding environment:
the effective size m = min(target bytes, available) is written in full,
the remaining space is available - m, and a file is created iff m > 0. -/
theorem generateChaffFile_allOk (env : GenEnv) (h : env.allOk)
    (fuel sizeMB availableSpace : Nat)
    (hfuel : min ((sizeMB * 1024 * 1024) % U64) availableSpace < fuel) :
    generateChaffFile env fuel sizeMB availableSpace =
      some ⟨availableSpace - min ((sizeMB * 1024 * 1024) % U64) availableSpace,
            min ((sizeMB * 1024 * 1024) % U64) availableSpace, false,
            decide (0 < min ((sizeMB * 1024 * 1024) % U64) availableSpace)⟩ := by
  have hmin : (if (sizeMB * 1024 * 1024) % U64 > availableSpace then availableSpace
      else (sizeMB * 1024 * 1024) % U64) =
      min ((sizeMB * 1024 * 1024) % U64) availableSpace := by
    split <;> omega
  by_cases hz : min ((sizeMB * 1024 * 1024) % U64) availableSpace = 0
  · simp [generateChaffFile, hmin, hz]
  · have hloop := genLoop_allOk env h fuel 0 0
      (min ((sizeMB * 1024 * 1024) % U64) availableSpace) (Nat.zero_le _)
      (by omega)
    have hus : usub availableSpace (min ((sizeMB * 1024 * 1024) % U64) availableSpace) =
        availableSpace - min ((sizeMB * 1024 * 1024) % U64) availableSpace := by
      unfold usub
      rw [if_pos (Nat.min_le_right _ _)]
    simp [generateChaffFile, hmin, hz, hloop, h.1, h.2.1, hus,
      Nat.pos_of_ne_zero hz]

/-- C3: for every requested size S (in MB) and available space A, the
effective write size of generateChaffFile is min(S·2^20, A) — written
in full on the success path — and with A = 0 it creates no file and
returns a zero byte count with the available space unchanged as a
nil-error return (chaff.go lines 40-56, 96).  The A = 0 part holds for
every environment; the general part is stated for environments whose
oracles all succeed. -/
theorem gen_effective_size :
    (∀ env fuel sizeMB, generateChaffFile env fuel sizeMB 0 =
        some ⟨0, 0, false, false⟩) ∧
    (∀ env fuel sizeMB availableSpace, GenEnv.allOk env →
      min ((sizeMB * 1024 * 1024) % U64) availableSpace < fuel →
      generateChaffFile env fuel sizeMB availableSpace =
        some ⟨availableSpace - min ((sizeMB * 1024 * 1024) % U64) availableSpace,
              min ((sizeMB * 1024 * 1024) % U64) availableSpace, false,
              decide (0 < min ((sizeMB * 1024 * 1024) % U64) availableSpace)⟩) := by
  constructor
  · intro env fuel sizeMB
    have h0 : ∀ s0 : Nat, (if s0 > 0 then (0 : Nat) else s0) = 0 := by
      intro s0; split <;> omega
    simp [generateChaffFile, h0]
  · intro env fuel sizeMB availableSpace h hfuel
    exact generateChaffFile_allOk env h fuel sizeMB availableSpace hfuel

/-- Witness for C3: with target 1 MB and 7 bytes available, the call
writes min(2^20, 7) = 7 bytes, leaves 0 remaining and reports no
error, having created the file. -/
theorem gen_effective_size_witness :
    generateChaffFile okGenEnv 8 1 7 = some ⟨0, 7, false, true⟩ := by
  rw [gen_effective_size.2 okGenEnv 8 1 7 okGenEnv_allOk (by decide)]
  decide

/-- C5: a chunk write that returns fewer bytes than requested surfaces
from os.File.Write as a non-nil error (the io.Writer contract; the
runtime completes short writes or errors), and generateChaffFile then
fails fatally at that chunk: no later chunk is processed, the returned
byte count is exactly the bytes of the fully completed chunks before
the failing write, and remaining space is the input minus that count
(chaff.go lines 77-80). -/
theorem gen_short_write_fatal (env : GenEnv)
    (fuel sizeMB availableSpace k : Nat)
    (hcreate : env.createOk = true)
    (hrand : ∀ c, c ≤ k → env.rand c = true)
    (hbefore : ∀ c r, c < k → env.write c r = .ok r)
    (hfailk : ∀ r, env.write k r = .fail)
    (hk : k * chunkSize < min ((sizeMB * 1024 * 1024) % U64) availableSpace)
    (hfuel : k < fuel) :
    generateChaffFile env fuel sizeMB availableSpace =
      some ⟨availableSpace - k * chunkSize, k * chunkSize, true, true⟩ := by
  have hmin : (if (sizeMB * 1024 * 1024) % U64 > availableSpace then availableSpace
      else (sizeMB * 1024 * 1024) % U64) =
      min ((sizeMB * 1024 * 1024) % U64) availableSpace := by
    split <;> omega
  have hz : ¬ (min ((sizeMB * 1024 * 1024) % U64) availableSpace = 0) := by omega
  have hloop := genLoop_fail_at env k hrand hbefore hfailk fuel 0
    (min ((sizeMB * 1024 * 1024) % U64) availableSpace) (Nat.zero_le _)
    (by omega) (by simpa using hk)
  simp only [Nat.zero_mul] at hloop
  have hle : k * chunkSize ≤ availableSpace := by
    have := Nat.min_le_right ((sizeMB * 1024 * 1024) % U64) availableSpace
    omega
  have hus : usub availableSpace (k * chunkSize) =
      availableSpace - k * chunkSize := by
    unfold usub
    rw [if_pos hle]
  simp [generateChaffFile, hmin, hz, hcreate, hloop, hus]

/-- Witness for C5: target 2 MB, 2 MiB available, the second chunk
write (k = 1) fails; the call reports an error with exactly the one
completed 1 MiB chunk counted and 1 MiB of space remaining. -/
theorem gen_short_write_fatal_witness :
    generateChaffFile (failAt 1) 2 2 2097152 =
      some ⟨1048576, 1048576, true, true⟩ := by
  have h := gen_short_write_fatal (failAt 1) 2 2 2097152 1 rfl
    (fun c _ => rfl)
    (fun c r hc => by simp [failAt, Nat.ne_of_lt hc])
    (fun r => by simp [failAt])
    (by decide) (by decide)
  rw [h]
  decide

/-- C9: on every return path of generateChaffFile the returned
remaining-space value is the input available space minus the returned
byte count, the byte count never exceeds the available space, and on a
nil-error return the byte count is exactly min(target bytes, available
space) (chaff.go lines 48-54, 73, 79, 92, 96). -/
theorem gen_accounting (env : GenEnv) (hwf : env.wf)
    (fuel sizeMB availableSpace : Nat)
    (hsz : sizeMB * 1024 * 1024 < U64) (out : GenOut)
    (h : generateChaffFile env fuel sizeMB availableSpace = some out) :
    out.remaining = availableSpace - out.written ∧
      out.written ≤ availableSpace ∧
      (out.isErr = false →
        out.written = min (sizeMB * 1024 * 1024) availableSpace) := by
  have hs0 : (sizeMB * 1024 * 1024) % U64 = sizeMB * 1024 * 1024 :=
    Nat.mod_eq_of_lt hsz
  have hmin : (if (sizeMB * 1024 * 1024) % U64 > availableSpace then availableSpace
      else (sizeMB * 1024 * 1024) % U64) =
      min (sizeMB * 1024 * 1024) availableSpace := by
    rw [hs0]; split <;> omega
  simp only [generateChaffFile, hmin] at h
  by_cases hz : min (sizeMB * 1024 * 1024) availableSpace = 0
  · rw [if_pos hz] at h
    cases h
    exact ⟨by simp, by simp, fun _ => by simp [hz]⟩
  · rw [if_neg hz] at h
    by_cases hcr : env.createOk = false
    · rw [if_pos hcr] at h
      cases h
      exact ⟨by simp, by simp, fun hco => by cases hco⟩
    · rw [if_neg hcr] at h
      rcases hgl : genLoop env fuel 0 0 (min (sizeMB * 1024 * 1024) availableSpace)
        with _ | ⟨w, e⟩
      · rw [hgl] at h; cases h
      · rw [hgl] at h
        have hb := genLoop_bounds env hwf fuel 0 0
          (min (sizeMB * 1024 * 1024) availableSpace) w e (Nat.zero_le _) hgl
        have hwA : w ≤ availableSpace := by
          have := Nat.min_le_right (sizeMB * 1024 * 1024) availableSpace
          omega
        have husw : usub availableSpace w = availableSpace - w := by
          unfold usub; rw [if_pos hwA]
        cases e
        · dsimp only at h
          by_cases hsy : env.syncOk = false
          · rw [if_pos hsy] at h
            cases h
            exact ⟨husw, hwA, fun hco => by cases hco⟩
          · rw [if_neg hsy] at h
            cases h
            have hw : w = min (sizeMB * 1024 * 1024) availableSpace :=
              hb.2.2 rfl
            have husz : usub availableSpace
                (min (sizeMB * 1024 * 1024) availableSpace) =
                availableSpace - min (sizeMB * 1024 * 1024) availableSpace := by
              unfold usub; rw [if_pos (Nat.min_le_right _ _)]
            refine ⟨by simp [husz, hw], by simp [hw], fun _ => by simp [hw]⟩
        · cases h
          exact ⟨husw, hwA, fun hco => by cases hco⟩

/-- Witness for C9 at a concrete success run: target 1 MB with 5 bytes
available writes 5 bytes, leaving 0 = 5 - 5. -/
theorem gen_accounting_witness :
    ∃ out, generateChaffFile okGenEnv 6 1 5 = some out ∧
      out.remaining = 5 - out.written ∧ out.written ≤ 5 ∧
      (out.isErr = false → out.written = min (1 * 1024 * 1024) 5) := by
  refine ⟨⟨0, 5, false, true⟩, by decide, ?_⟩
  exact gen_accounting okGenEnv okGenEnv_wf 6 1 5 (by decide) _ (by decide)

theorem okShredEnv_allOk (n : Nat) : (okShredEnv n).allOk :=
  ⟨rfl, rfl, fun _ => rfl, fun _ => rfl, fun _ _ => rfl, fun _ => rfl, rfl, rfl⟩

/-- Every event of a pass chunk loop is a write of that pass with a
positive request of at most one chunk, and on a nil-error exit the
trace accounts for exactly the remaining bytes with every write full. -/
theorem passLoop_spec (env : ShredEnv) (p : Nat) :
    ∀ fuel ctr rem c' evs err,
      passLoop env p fuel ctr rem = some (c', evs, err) →
      (∀ e ∈ evs, ∃ pat r n, e = Ev.wrote p pat r n ∧ 0 < r ∧ r ≤ chunkSize) ∧
      (err = false → writesSum evs = rem ∧
        ∀ e ∈ evs, ∃ pat r, e = Ev.wrote p pat r r) := by
  intro fuel
  induction fuel with
  | zero => intro ctr rem c' evs err h; simp [passLoop] at h
  | succ fuel ih =>
    intro ctr rem c' evs err h
    have hc : chunkSize = 1048576 := rfl
    by_cases hrem : rem = 0
    · simp only [passLoop, if_pos hrem, Option.some.injEq, Prod.mk.injEq] at h
      obtain ⟨rfl, rfl, rfl⟩ := h
      exact ⟨by simp, fun _ => by simp [hrem]⟩
    · simp only [passLoop, if_neg hrem] at h
      have htw : 0 < min chunkSize rem ∧ min chunkSize rem ≤ chunkSize := by
        constructor
        · rw [hc]; omega
        · exact Nat.min_le_left _ _
      by_cases hp2 : p = 2 ∧ env.rand ctr = false
      · rw [if_pos hp2] at h
        simp only [Option.some.injEq, Prod.mk.injEq] at h
        obtain ⟨rfl, rfl, rfl⟩ := h
        exact ⟨by simp, fun hco => by cases hco⟩
      · rw [if_neg hp2] at h
        rcases hwr : env.write ctr (min chunkSize rem) with n | _
        · rw [hwr] at h
          dsimp only at h
          by_cases hne : n ≠ min chunkSize rem
          · rw [if_pos hne] at h
            simp only [Option.some.injEq, Prod.mk.injEq] at h
            obtain ⟨rfl, rfl, rfl⟩ := h
            refine ⟨?_, fun hco => by cases hco⟩
            intro e he
            simp only [List.mem_singleton] at he
            exact ⟨patOf p ctr, min chunkSize rem, n, he, htw.1, htw.2⟩
          · rw [if_neg hne] at h
            push_neg at hne
            rcases hrec : passLoop env p fuel (ctr + 1) (rem - min chunkSize rem)
              with _ | ⟨c'', evs', e'⟩
            · rw [hrec] at h; cases h
            · rw [hrec] at h
              simp only [Option.some.injEq, Prod.mk.injEq] at h
              obtain ⟨rfl, rfl, rfl⟩ := h
              have hi := ih (ctr + 1) (rem - min chunkSize rem) c'' evs' e' hrec
              constructor
              · intro e he
                rcases List.mem_cons.mp he with rfl | he'
                · exact ⟨patOf p ctr, min chunkSize rem, n, by rw [hne], htw.1,
                    htw.2⟩
                · exact hi.1 e he'
              · intro he'
                have hs := hi.2 he'
                constructor
                · rw [writesSum_cons, hs.1]
                  have : min chunkSize rem ≤ rem := Nat.min_le_right _ _
                  simp only [evBytes, hne]
                  omega
                · intro e he
                  rcases List.mem_cons.mp he with rfl | hee
                  · exact ⟨patOf p ctr, min chunkSize rem, by rw [hne]⟩
                  · exact hs.2 e hee
        · rw [hwr] at h
          simp only [Option.some.injEq, Prod.mk.injEq] at h
          obtain ⟨rfl, rfl, rfl⟩ := h
          exact ⟨by simp, fun hco => by cases hco⟩

/-- Under succeeding rand and full-write oracles, the pass chunk loop
produces exactly the canonical event list `mkPassEvs` with no error. -/
theorem passLoop_allOk (env : ShredEnv) (p : Nat)
    (hrand : ∀ c, env.rand c = true) (hw : ∀ c r, env.write c r = .ok r) :
    ∀ fuel ctr rem, rem < fuel →
      ∃ c', passLoop env p fuel ctr rem =
        some (c', mkPassEvs p fuel ctr rem, false) := by
  intro fuel
  induction fuel with
  | zero => intro ctr rem h; omega
  | succ fuel ih =>
    intro ctr rem h
    have hc : chunkSize = 1048576 := rfl
    by_cases hrem : rem = 0
    · exact ⟨ctr, by simp [passLoop, mkPassEvs, hrem]⟩
    · have htpos : 0 < min chunkSize rem := by rw [hc]; omega
      obtain ⟨c', hrec⟩ := ih (ctr + 1) (rem - min chunkSize rem) (by omega)
      refine ⟨c', ?_⟩
      have hnp2 : ¬ (p = 2 ∧ env.rand ctr = false) := by
        rintro ⟨_, hfalse⟩
        rw [hrand ctr] at hfalse
        cases hfalse
      simp [passLoop, mkPassEvs, hrem, hnp2, hw, hrec]

/-- Every canonical pass event is a full write of this pass's pattern
drawn at some counter at or past the starting counter. -/
theorem mkPassEvs_mem (p : Nat) :
    ∀ fuel ctr rem e, e ∈ mkPassEvs p fuel ctr rem →
      ∃ k r, e = Ev.wrote p (patOf p k) r r ∧ 0 < r ∧ r ≤ chunkSize ∧ ctr ≤ k := by
  intro fuel
  induction fuel with
  | zero => intro ctr rem e he; simp [mkPassEvs] at he
  | succ fuel ih =>
    intro ctr rem e he
    have hc : chunkSize = 1048576 := rfl
    by_cases hrem : rem = 0
    · simp [mkPassEvs, hrem] at he
    · simp only [mkPassEvs, if_neg hrem, List.mem_cons] at he
      rcases he with rfl | he'
      · exact ⟨ctr, min chunkSize rem, rfl, by rw [hc]; omega,
          Nat.min_le_left _ _, Nat.le_refl ctr⟩
      · obtain ⟨k, r, h1, h2, h3, h4⟩ := ih (ctr + 1) (rem - min chunkSize rem) e he'
        exact ⟨k, r, h1, h2, h3, by omega⟩

/-- The canonical pass events account for exactly the remaining bytes. -/
theorem mkPassEvs_sum (p : Nat) :
    ∀ fuel ctr rem, rem < fuel → writesSum (mkPassEvs p fuel ctr rem) = rem := by
  intro fuel
  induction fuel with
  | zero => intro ctr rem h; omega
  | succ fuel ih =>
    intro ctr rem h
    have hc : chunkSize = 1048576 := rfl
    by_cases hrem : rem = 0
    · simp [mkPassEvs, hrem]
    · have hrec := ih (ctr + 1) (rem - min chunkSize rem) (by omega)
      simp only [mkPassEvs, if_neg hrem, writesSum_cons, hrec, evBytes]
      omega

/-- Random indices of the canonical pass-2 events all lie at or past
the starting counter. -/
theorem rndIdxs_mkPassEvs_ge :
    ∀ fuel ctr rem k, k ∈ rndIdxs (mkPassEvs 2 fuel ctr rem) → ctr ≤ k := by
  intro fuel
  induction fuel with
  | zero => intro ctr rem k h; simp [mkPassEvs, rndIdxs] at h
  | succ fuel ih =>
    intro ctr rem k h
    by_cases hrem : rem = 0
    · simp [mkPassEvs, hrem, rndIdxs] at h
    · simp only [mkPassEvs, if_neg hrem, rndIdxs, List.filterMap_cons, patOf,
        if_neg (by omega : ¬(2 = 0)), if_neg (by omega : ¬(2 = 1))] at h
      simp only [List.mem_cons] at h
      rcases h with rfl | h'
      · exact Nat.le_refl k
      · have := ih (ctr + 1) (rem - min chunkSize rem) k (by simpa [rndIdxs] using h')
        omega

/-- Pass 2 of the chaff.go shredder draws a fresh random pattern for
every chunk: the random indices of its canonical events are pairwise
distinct. -/
theorem rndIdxs_mkPassEvs_nodup :
    ∀ fuel ctr rem, (rndIdxs (mkPassEvs 2 fuel ctr rem)).Nodup := by
  intro fuel
  induction fuel with
  | zero => intro ctr rem; simp [mkPassEvs, rndIdxs]
  | succ fuel ih =>
    intro ctr rem
    by_cases hrem : rem = 0
    · simp [mkPassEvs, hrem, rndIdxs]
    · simp only [mkPassEvs, if_neg hrem, rndIdxs, List.filterMap_cons, patOf,
        if_neg (by omega : ¬(2 = 0)), if_neg (by omega : ¬(2 = 1))]
      rw [List.nodup_cons]
      constructor
      · intro hmem
        have := rndIdxs_mkPassEvs_ge fuel (ctr + 1) (rem - min chunkSize rem) ctr
          (by simpa [rndIdxs] using hmem)
        omega
      · exact ih (ctr + 1) (rem - min chunkSize rem)

/-- A list that consists only of write events contains no sync and no
removal and counts zero syncs. -/
theorem wrote_only_facts (p : Nat) (evs : List Ev)
    (h : ∀ e ∈ evs, ∃ pat r n, e = Ev.wrote p pat r n ∧ 0 < r ∧ r ≤ chunkSize) :
    Ev.removed ∉ evs ∧ syncCount evs = 0 := by
  constructor
  · intro hmem
    obtain ⟨pat, r, n, he, _, _⟩ := h _ hmem
    cases he
  · rw [syncCount, List.countP_eq_zero]
    intro e he
    obtain ⟨pat, r, n, rfl, _, _⟩ := h e he
    simp

/-- A shred pass never emits a removal event, whatever its outcome. -/
theorem shredPass_no_removed (env : ShredEnv) (p ctr fuel c' : Nat)
    (t : List Ev) (e : Bool) (h : shredPass env p ctr fuel = some (c', t, e)) :
    Ev.removed ∉ t := by
  unfold shredPass at h
  by_cases hs : env.seekOk p = false
  · rw [if_pos hs] at h
    simp only [Option.some.injEq, Prod.mk.injEq] at h
    obtain ⟨rfl, rfl, rfl⟩ := h
    simp
  · rw [if_neg hs] at h
    rcases hpl : passLoop env p fuel ctr env.size with _ | ⟨c'', evs, e'⟩
    · rw [hpl] at h; cases h
    · rw [hpl] at h
      have hevs := (passLoop_spec env p fuel ctr env.size c'' evs e' hpl).1
      have hno := (wrote_only_facts p evs hevs).1
      cases e'
      · dsimp only at h
        by_cases hsy : env.syncOk p = false
        · rw [if_pos hsy] at h
          simp only [Option.some.injEq, Prod.mk.injEq] at h
          obtain ⟨rfl, rfl, rfl⟩ := h
          simp [hno]
        · rw [if_neg hsy] at h
          simp only [Option.some.injEq, Prod.mk.injEq] at h
          obtain ⟨rfl, rfl, -⟩ := h
          simp [hno]
      · simp only [Option.some.injEq, Prod.mk.injEq] at h
        obtain ⟨rfl, rfl, rfl⟩ := h
        simp [hno]

/-- A successful shred pass writes exactly the file size and flushes
exactly once, after all its writes. -/
theorem shredPass_success (env : ShredEnv) (p ctr fuel c' : Nat) (t : List Ev)
    (h : shredPass env p ctr fuel = some (c', t, false)) :
    writesSum t = env.size ∧ syncCount t = 1 := by
  unfold shredPass at h
  by_cases hs : env.seekOk p = false
  · rw [if_pos hs] at h
    simp only [Option.some.injEq, Prod.mk.injEq] at h
    obtain ⟨_, _, h3⟩ := h
    cases h3
  · rw [if_neg hs] at h
    rcases hpl : passLoop env p fuel ctr env.size with _ | ⟨c'', evs, e'⟩
    · rw [hpl] at h; cases h
    · rw [hpl] at h
      have hspec := passLoop_spec env p fuel ctr env.size c'' evs e' hpl
      have hsync0 := (wrote_only_facts p evs hspec.1).2
      cases e'
      · dsimp only at h
        by_cases hsy : env.syncOk p = false
        · rw [if_pos hsy] at h
          simp only [Option.some.injEq, Prod.mk.injEq] at h
          obtain ⟨_, _, h3⟩ := h
          cases h3
        · rw [if_neg hsy] at h
          simp only [Option.some.injEq, Prod.mk.injEq] at h
          obtain ⟨rfl, rfl, -⟩ := h
          have hsum := (hspec.2 rfl).1
          constructor
          · rw [writesSum_cons, writesSum_append]
            have h1 : evBytes (Ev.seeked p) = 0 := rfl
            have h2 : writesSum [Ev.synced p] = 0 := rfl
            omega
          · have h1 : syncCount (Ev.seeked p :: (evs ++ [Ev.synced p])) =
                syncCount (evs ++ [Ev.synced p]) := by
              simp [syncCount, List.countP_cons]
            rw [h1, syncCount_append, hsync0]
            rfl
      · simp only [Option.some.injEq, Prod.mk.injEq] at h
        obtain ⟨_, _, h3⟩ := h
        cases h3

/-- A trace that ends in its only removal event decomposes uniquely. -/
theorem append_removed_decomp :
    ∀ (T pre post : List Ev), Ev.removed ∉ T →
      pre ++ Ev.removed :: post = T ++ [Ev.removed] → pre = T ∧ post = [] := by
  intro T
  induction T with
  | nil =>
    intro pre post _ h
    cases pre with
    | nil =>
      simp only [List.nil_append] at h
      exact ⟨rfl, by injection h⟩
    | cons x pre' =>
      simp only [List.cons_append, List.nil_append] at h
      injection h with h1 h2
      exact absurd h2 (by simp)
  | cons t T' ih =>
    intro pre post hT h
    simp only [List.mem_cons, not_or] at hT
    cases pre with
    | nil =>
      simp only [List.nil_append, List.cons_append] at h
      injection h with h1 h2
      exact absurd h1 hT.1
    | cons x pre' =>
      simp only [List.cons_append] at h
      injection h with h1 h2
      obtain ⟨h3, h4⟩ := ih pre' post hT.2 h2
      exact ⟨by rw [h1, h3], h4⟩

/-- Concatenation of three removal-free pass traces is removal-free. -/
theorem no_removed_append3 (t0 t1 t2 : List Ev)
    (h0 : Ev.removed ∉ t0) (h1 : Ev.removed ∉ t1) (h2 : Ev.removed ∉ t2) :
    Ev.removed ∉ t0 ++ t1 ++ t2 := by
  simp [List.mem_append, h0, h1, h2]

/-- A removal-free trace admits no decomposition around a removal. -/
theorem no_removed_no_decomp (T pre post : List Ev)
    (hn : Ev.removed ∉ T) (h : T = pre ++ Ev.removed :: post) : False := by
  apply hn
  rw [h]
  simp

/-- C1 (amended): provided the file can be opened and stat'ed, a
non-empty file is removed only at the very end of a fully successful
run — every decomposition of the trace around the removal event puts
all three pass flushes and exactly 3×N written bytes strictly before
it and nothing after it.  If the open fails, however, shredFile
removes the file unconditionally without a single overwrite pass
(chaff.go lines 104-109), which is the fail-open branch that refutes
the claim as stated. -/
theorem shred_removal_only_after_passes :
    (∀ env fuel out, env.openOk = true → env.statOk = true → 0 < env.size →
      shredFile env fuel = some out →
      ∀ pre post, out.trace = pre ++ Ev.removed :: post →
        post = [] ∧ writesSum pre = 3 * env.size ∧ syncCount pre = 3) ∧
    (∀ env fuel, env.openOk = false → env.removeOk = true →
      shredFile env fuel = some ⟨true, [Ev.removed]⟩) := by
  constructor
  · intro env fuel out hopen hstat hsize hsf pre post htr
    have hopen' : ¬ env.openOk = false := by simp [hopen]
    have hstat' : ¬ env.statOk = false := by simp [hstat]
    have hsz' : ¬ env.size = 0 := by omega
    simp only [shredFile, if_neg hopen', if_neg hstat', if_neg hsz'] at hsf
    rcases hp0 : shredPass env 0 0 fuel with _ | ⟨c1, t0, e0⟩
    · rw [hp0] at hsf; cases hsf
    · rw [hp0] at hsf
      have hnr0 := shredPass_no_removed env 0 0 fuel c1 t0 e0 hp0
      cases e0
      · dsimp only at hsf
        rw [if_neg Bool.false_ne_true] at hsf
        rcases hp1 : shredPass env 1 c1 fuel with _ | ⟨c2, t1, e1⟩
        · rw [hp1] at hsf; cases hsf
        · rw [hp1] at hsf
          have hnr1 := shredPass_no_removed env 1 c1 fuel c2 t1 e1 hp1
          cases e1
          · dsimp only at hsf
            rw [if_neg Bool.false_ne_true] at hsf
            rcases hp2 : shredPass env 2 c2 fuel with _ | ⟨c3, t2, e2⟩
            · rw [hp2] at hsf; cases hsf
            · rw [hp2] at hsf
              have hnr2 := shredPass_no_removed env 2 c2 fuel c3 t2 e2 hp2
              have hnoT := no_removed_append3 t0 t1 t2 hnr0 hnr1 hnr2
              cases e2
              · dsimp only at hsf
                rw [if_neg Bool.false_ne_true] at hsf
                by_cases hcl : env.closeOk = false
                · rw [if_pos hcl] at hsf
                  cases hsf
                  exact (no_removed_no_decomp _ pre post hnoT htr).elim
                · rw [if_neg hcl] at hsf
                  by_cases hrm : env.removeOk = false
                  · rw [if_pos hrm] at hsf
                    cases hsf
                    exact (no_removed_no_decomp _ pre post hnoT htr).elim
                  · rw [if_neg hrm] at hsf
                    cases hsf
                    obtain ⟨hpre, hpost⟩ :=
                      append_removed_decomp (t0 ++ t1 ++ t2) pre post hnoT htr.symm
                    subst hpre
                    have hs0 := shredPass_success env 0 0 fuel c1 t0 hp0
                    have hs1 := shredPass_success env 1 c1 fuel c2 t1 hp1
                    have hs2 := shredPass_success env 2 c2 fuel c3 t2 hp2
                    refine ⟨hpost, ?_, ?_⟩
                    · rw [writesSum_append, writesSum_append,
                        hs0.1, hs1.1, hs2.1]
                      ring
                    · rw [syncCount_append, syncCount_append,
                        hs0.2, hs1.2, hs2.2]
              · dsimp only at hsf
                rw [if_pos rfl] at hsf
                cases hsf
                exact (no_removed_no_decomp _ pre post hnoT htr).elim
          · dsimp only at hsf
            rw [if_pos rfl] at hsf
            cases hsf
            have hno01 : Ev.removed ∉ t0 ++ t1 := by
              simp [List.mem_append, hnr0, hnr1]
            exact (no_removed_no_decomp _ pre post hno01 htr).elim
      · dsimp only at hsf
        rw [if_pos rfl] at hsf
        cases hsf
        exact (no_removed_no_decomp _ pre post hnr0 htr).elim
  · intro env fuel hopen hrem
    simp [shredFile, hopen, hrem]

/-- Witness for C1 at a fully-succeeding run on a 5-byte file: the
removal is last, preceded by 15 = 3·5 written bytes and 3 flushes. -/
theorem shred_removal_only_after_passes_witness :
    ([] : List Ev) = [] ∧ writesSum okTrace5 = 3 * 5 ∧
      syncCount okTrace5 = 3 := by
  have h := shred_removal_only_after_passes.1 (okShredEnv 5) 6
    ⟨false, okTrace5 ++ [Ev.removed]⟩ rfl rfl (by decide) (by decide)
    okTrace5 [] rfl
  simpa using h

/-- Counterexample to C1 as stated: on a file of size 5 > 0 whose open
fails, shredFile removes the file from the filesystem having written 0
bytes and completed 0 flushes — the removal is not preceded by three
passes totalling 3×5 bytes. -/
theorem shred_open_fail_removes_nonempty :
    0 < openFailEnv.size ∧
      shredFile openFailEnv 6 = some ⟨true, [] ++ Ev.removed :: []⟩ ∧
      ¬(writesSum [] = 3 * openFailEnv.size ∧ syncCount [] = 3) := by
  exact ⟨by decide, by decide, by decide⟩

/-- If every event of a list is a write of pass q with pattern patq,
then a pass-2 write found in it forces q = 2 and the same pattern. -/
theorem wrote2_mem_cases (pat : Pat) (r n q : Nat) (patq : Pat)
    (t : List Ev) (hw : ∀ ev ∈ t, ∃ w m, ev = Ev.wrote q patq w m)
    (hm : Ev.wrote 2 pat r n ∈ t) : q = 2 ∧ pat = patq := by
  obtain ⟨w, m, heq⟩ := hw _ hm
  injection heq with h1 h2 h3 h4
  exact ⟨h1.symm, h2⟩

/-- On a successful shred pass every traced write is full. -/
theorem shredPass_success_full (env : ShredEnv) (p ctr fuel c' : Nat)
    (t : List Ev) (h : shredPass env p ctr fuel = some (c', t, false)) :
    ∀ q pat r n, Ev.wrote q pat r n ∈ t → n = r := by
  unfold shredPass at h
  by_cases hs : env.seekOk p = false
  · rw [if_pos hs] at h
    simp only [Option.some.injEq, Prod.mk.injEq] at h
    obtain ⟨_, _, h3⟩ := h
    cases h3
  · rw [if_neg hs] at h
    rcases hpl : passLoop env p fuel ctr env.size with _ | ⟨c'', evs, e'⟩
    · rw [hpl] at h; cases h
    · rw [hpl] at h
      have hspec := passLoop_spec env p fuel ctr env.size c'' evs e' hpl
      cases e'
      · dsimp only at h
        by_cases hsy : env.syncOk p = false
        · rw [if_pos hsy] at h
          simp only [Option.some.injEq, Prod.mk.injEq] at h
          obtain ⟨_, _, h3⟩ := h
          cases h3
        · rw [if_neg hsy] at h
          simp only [Option.some.injEq, Prod.mk.injEq] at h
          obtain ⟨rfl, rfl, -⟩ := h
          intro q pat r n hm
          simp only [List.mem_cons, List.mem_append, List.mem_singleton] at hm
          rcases hm with hm | hm | hm | hm
          · cases hm
          · obtain ⟨pat', r', heq⟩ := (hspec.2 rfl).2 _ hm
            injection heq with h1 h2 h3 h4
            rw [h3, h4]
          · cases hm
          · simp at hm
      · simp only [Option.some.injEq, Prod.mk.injEq] at h
        obtain ⟨_, _, h3⟩ := h
        cases h3

/-- Under a fully-succeeding environment, shredFile on a non-empty
file produces exactly the three passes in order — each traced as a
seek, the canonical chunk writes of its pattern, and a flush — with
the removal as the final event and a nil error. -/
theorem shredFile_allOk_trace (env : ShredEnv) (h : env.allOk)
    (fuel : Nat) (hsz : 0 < env.size) (hfuel : env.size < fuel) :
    ∃ c1 c2,
      shredFile env fuel = some ⟨false,
        (Ev.seeked 0 :: (mkPassEvs 0 fuel 0 env.size ++ [Ev.synced 0])) ++
        (Ev.seeked 1 :: (mkPassEvs 1 fuel c1 env.size ++ [Ev.synced 1])) ++
        (Ev.seeked 2 :: (mkPassEvs 2 fuel c2 env.size ++ [Ev.synced 2])) ++
        [Ev.removed]⟩ := by
  obtain ⟨ho, hst, hse, hra, hwr, hsy, hcl, hrm⟩ := h
  obtain ⟨c1, hp0⟩ := passLoop_allOk env 0 hra hwr fuel 0 env.size hfuel
  obtain ⟨c2, hp1⟩ := passLoop_allOk env 1 hra hwr fuel c1 env.size hfuel
  obtain ⟨c3, hp2⟩ := passLoop_allOk env 2 hra hwr fuel c2 env.size hfuel
  refine ⟨c1, c2, ?_⟩
  have hz : ¬ env.size = 0 := by omega
  have hsp0 : shredPass env 0 0 fuel = some (c1,
      Ev.seeked 0 :: (mkPassEvs 0 fuel 0 env.size ++ [Ev.synced 0]), false) := by
    simp [shredPass, hse, hsy, hp0]
  have hsp1 : shredPass env 1 c1 fuel = some (c2,
      Ev.seeked 1 :: (mkPassEvs 1 fuel c1 env.size ++ [Ev.synced 1]), false) := by
    simp [shredPass, hse, hsy, hp1]
  have hsp2 : shredPass env 2 c2 fuel = some (c3,
      Ev.seeked 2 :: (mkPassEvs 2 fuel c2 env.size ++ [Ev.synced 2]), false) := by
    simp [shredPass, hse, hsy, hp2]
  simp [shredFile, ho, hst, hz, hsp0, hsp1, hsp2, hcl, hrm]

/-- Membership in one traced pass block is membership in its write
events or equality with its seek or sync marker. -/
theorem mem_passBlock (p : Nat) (tp : List Ev) (ev : Ev)
    (h : ev ∈ Ev.seeked p :: (tp ++ [Ev.synced p])) :
    ev ∈ tp ∨ ev = Ev.seeked p ∨ ev = Ev.synced p := by
  rcases List.mem_cons.mp h with h | h
  · right; left; exact h
  · rcases List.mem_append.mp h with h | h
    · left; exact h
    · right; right; simpa using h

/-- Helper for the low-level variant: a pass-2 write event anywhere in
its trace carries the pass-2 buffer content, which is computed once
per pass (a single readUrandom draw, or the stale buffer on entropy
failure). -/
theorem LL.pass2_write_pat (env : LL.Env) (fuel : Nat) (out : ShredOut)
    (h : LL.shredFile env fuel = some out) (pat : Pat) (r n : Nat)
    (hm : Ev.wrote 2 pat r n ∈ out.trace) :
    pat = (if env.rand 0 then Pat.rnd 0 else Pat.zero) := by
  unfold LL.shredFile at h
  by_cases ho : env.openOk = false
  · rw [if_pos ho] at h
    cases h
    simp at hm
  · rw [if_neg ho] at h
    by_cases hst : env.statOk = false
    · rw [if_pos hst] at h
      cases h
      simp at hm
    · rw [if_neg hst] at h
      by_cases hz : env.size = 0
      · rw [if_pos hz] at h
        cases h
        simp at hm
      · rw [if_neg hz] at h
        rcases hp0 : LL.passLoop env 0 Pat.ff fuel 0 env.size
          with _ | ⟨c1, t0, e0⟩
        · rw [hp0] at h; cases h
        · rw [hp0] at h
          have hw0 := LL.passLoop_pat env 0 Pat.ff fuel 0 env.size c1 t0 e0 hp0
          cases e0
          · dsimp only at h
            rw [if_neg Bool.false_ne_true] at h
            rcases hp1 : LL.passLoop env 1 Pat.zero fuel c1 env.size
              with _ | ⟨c2, t1, e1⟩
            · rw [hp1] at h; cases h
            · rw [hp1] at h
              have hw1 := LL.passLoop_pat env 1 Pat.zero fuel c1 env.size
                c2 t1 e1 hp1
              cases e1
              · dsimp only at h
                rw [if_neg Bool.false_ne_true] at h
                rcases hp2 : LL.passLoop env 2
                    (if env.rand 0 then Pat.rnd 0 else Pat.zero) fuel c2 env.size
                  with _ | ⟨c3, t2, e2⟩
                · rw [hp2] at h; cases h
                · rw [hp2] at h
                  have hw2 := LL.passLoop_pat env 2
                    (if env.rand 0 then Pat.rnd 0 else Pat.zero) fuel c2 env.size
                    c3 t2 e2 hp2
                  cases e2
                  · dsimp only at h
                    rw [if_neg Bool.false_ne_true] at h
                    cases h
                    rcases List.mem_append.mp hm with hm1 | hm1
                    · rcases List.mem_append.mp hm1 with hm2 | hm2
                      · rcases List.mem_append.mp hm2 with hm3 | hm3
                        · rcases mem_passBlock 0 t0 _ hm3 with hm4 | hm4 | hm4
                          · exact absurd
                              (wrote2_mem_cases pat r n 0 Pat.ff t0 hw0 hm4).1
                              (by omega)
                          · cases hm4
                          · cases hm4
                        · rcases mem_passBlock 1 t1 _ hm3 with hm4 | hm4 | hm4
                          · exact absurd
                              (wrote2_mem_cases pat r n 1 Pat.zero t1 hw1 hm4).1
                              (by omega)
                          · cases hm4
                          · cases hm4
                      · rcases mem_passBlock 2 t2 _ hm2 with hm4 | hm4 | hm4
                        · exact (wrote2_mem_cases pat r n 2 _ t2 hw2 hm4).2
                        · cases hm4
                        · cases hm4
                    · simp at hm1
                  · dsimp only at h
                    rw [if_pos rfl] at h
                    cases h
                    rcases List.mem_append.mp hm with hm1 | hm1
                    · rcases List.mem_append.mp hm1 with hm2 | hm2
                      · rcases mem_passBlock 0 t0 _ hm2 with hm4 | hm4 | hm4
                        · exact absurd
                            (wrote2_mem_cases pat r n 0 Pat.ff t0 hw0 hm4).1
                            (by omega)
                        · cases hm4
                        · cases hm4
                      · rcases mem_passBlock 1 t1 _ hm2 with hm4 | hm4 | hm4
                        · exact absurd
                            (wrote2_mem_cases pat r n 1 Pat.zero t1 hw1 hm4).1
                            (by omega)
                        · cases hm4
                        · cases hm4
                    · rcases List.mem_cons.mp hm1 with hm4 | hm4
                      · cases hm4
                      · exact (wrote2_mem_cases pat r n 2 _ t2 hw2 hm4).2
              · dsimp only at h
                rw [if_pos rfl] at h
                cases h
                rcases List.mem_append.mp hm with hm1 | hm1
                · rcases mem_passBlock 0 t0 _ hm1 with hm4 | hm4 | hm4
                  · exact absurd
                      (wrote2_mem_cases pat r n 0 Pat.ff t0 hw0 hm4).1
                      (by omega)
                  · cases hm4
                  · cases hm4
                · rcases List.mem_cons.mp hm1 with hm4 | hm4
                  · cases hm4
                  · exact absurd
                      (wrote2_mem_cases pat r n 1 Pat.zero t1 hw1 hm4).1
                      (by omega)
          · dsimp only at h
            rw [if_pos rfl] at h
            cases h
            rcases List.mem_cons.mp hm with hm4 | hm4
            · cases hm4
            · exact absurd (wrote2_mem_cases pat r n 0 Pat.ff t0 hw0 hm4).1
                (by omega)

/-- C2 (amended): for every non-empty file under fully-succeeding
oracles, chaff.go's shredFile performs exactly three full-length
passes in the fixed order 0xFF (pass 0), 0x00 (pass 1), random
(pass 2), in chunks of at most 1 MiB covering the whole size, with
pass 2 drawing a fresh random pattern for every chunk (the draw
indices are pairwise distinct) and an fsync completing after each
pass before the next pass begins, removal last.  The low-level
variant (src/unnamed/part_001) keeps the order, chunking and per-pass
fsync but generates its pass-3 random buffer once per pass and reuses
it for every chunk of that pass (every pass-2 write carries the single
draw), which refutes "regenerated for each chunk" there. -/
theorem shred_pass_structure_amended :
    (∀ env fuel, ShredEnv.allOk env → 0 < env.size → env.size < fuel →
      ∃ c1 c2,
        shredFile env fuel = some ⟨false,
          (Ev.seeked 0 :: (mkPassEvs 0 fuel 0 env.size ++ [Ev.synced 0])) ++
          (Ev.seeked 1 :: (mkPassEvs 1 fuel c1 env.size ++ [Ev.synced 1])) ++
          (Ev.seeked 2 :: (mkPassEvs 2 fuel c2 env.size ++ [Ev.synced 2])) ++
          [Ev.removed]⟩ ∧
        (∀ e ∈ mkPassEvs 0 fuel 0 env.size,
          ∃ r, e = Ev.wrote 0 Pat.ff r r ∧ 0 < r ∧ r ≤ chunkSize) ∧
        (∀ e ∈ mkPassEvs 1 fuel c1 env.size,
          ∃ r, e = Ev.wrote 1 Pat.zero r r ∧ 0 < r ∧ r ≤ chunkSize) ∧
        (∀ e ∈ mkPassEvs 2 fuel c2 env.size,
          ∃ k r, e = Ev.wrote 2 (Pat.rnd k) r r ∧ 0 < r ∧ r ≤ chunkSize) ∧
        (rndIdxs (mkPassEvs 2 fuel c2 env.size)).Nodup ∧
        writesSum (mkPassEvs 0 fuel 0 env.size) = env.size ∧
        writesSum (mkPassEvs 1 fuel c1 env.size) = env.size ∧
        writesSum (mkPassEvs 2 fuel c2 env.size) = env.size) ∧
    (∀ env fuel out, env.rand 0 = true → LL.shredFile env fuel = some out →
      ∀ pat r n, Ev.wrote 2 pat r n ∈ out.trace → pat = Pat.rnd 0) := by
  constructor
  · intro env fuel h hsz hfuel
    obtain ⟨c1, c2, htr⟩ := shredFile_allOk_trace env h fuel hsz hfuel
    refine ⟨c1, c2, htr, ?_, ?_, ?_, rndIdxs_mkPassEvs_nodup fuel c2 env.size,
      mkPassEvs_sum 0 fuel 0 env.size hfuel,
      mkPassEvs_sum 1 fuel c1 env.size hfuel,
      mkPassEvs_sum 2 fuel c2 env.size hfuel⟩
    · intro e he
      obtain ⟨k, r, h1, h2, h3, h4⟩ := mkPassEvs_mem 0 fuel 0 env.size e he
      exact ⟨r, by simpa [patOf] using h1, h2, h3⟩
    · intro e he
      obtain ⟨k, r, h1, h2, h3, h4⟩ := mkPassEvs_mem 1 fuel c1 env.size e he
      exact ⟨r, by simpa [patOf] using h1, h2, h3⟩
    · intro e he
      obtain ⟨k, r, h1, h2, h3, h4⟩ := mkPassEvs_mem 2 fuel c2 env.size e he
      exact ⟨k, r, by simpa [patOf] using h1, h2, h3⟩
  · intro env fuel out hr h pat r n hm
    have hp := LL.pass2_write_pat env fuel out h pat r n hm
    rwa [if_pos hr] at hp

/-- Witness for C2 on a 5-byte file with all oracles succeeding. -/
theorem shred_pass_structure_amended_witness :
    ∃ c1 c2,
      shredFile (okShredEnv 5) 6 = some ⟨false,
        (Ev.seeked 0 :: (mkPassEvs 0 6 0 5 ++ [Ev.synced 0])) ++
        (Ev.seeked 1 :: (mkPassEvs 1 6 c1 5 ++ [Ev.synced 1])) ++
        (Ev.seeked 2 :: (mkPassEvs 2 6 c2 5 ++ [Ev.synced 2])) ++
        [Ev.removed]⟩ ∧
      (∀ e ∈ mkPassEvs 0 6 0 5,
        ∃ r, e = Ev.wrote 0 Pat.ff r r ∧ 0 < r ∧ r ≤ chunkSize) ∧
      (∀ e ∈ mkPassEvs 1 6 c1 5,
        ∃ r, e = Ev.wrote 1 Pat.zero r r ∧ 0 < r ∧ r ≤ chunkSize) ∧
      (∀ e ∈ mkPassEvs 2 6 c2 5,
        ∃ k r, e = Ev.wrote 2 (Pat.rnd k) r r ∧ 0 < r ∧ r ≤ chunkSize) ∧
      (rndIdxs (mkPassEvs 2 6 c2 5)).Nodup ∧
      writesSum (mkPassEvs 0 6 0 5) = 5 ∧
      writesSum (mkPassEvs 1 6 c1 5) = 5 ∧
      writesSum (mkPassEvs 2 6 c2 5) = 5 :=
  shred_pass_structure_amended.1 (okShredEnv 5) 6 (okShredEnv_allOk 5)
    (by decide) (by decide)

/-- Counterexample to C2 as stated: on a 2-chunk file the low-level
shredFile cited by the claim writes the same random draw (index 0) in
both chunks of pass 3 — the draw indices are [0, 0], not pairwise
distinct, so the random bytes are not regenerated for each chunk. -/
theorem ll_shred_random_reused :
    LL.shredFile (llOkEnv 1048577) 1048579 = some ⟨false, llReusedTrace⟩ ∧
      rndIdxs llReusedTrace = [0, 0] ∧ ¬ (rndIdxs llReusedTrace).Nodup :=
  ⟨by decide, by decide, by decide⟩

/-- C6 (amended): in chaff.go's shredFile a chunk write whose
returned count differs from the requested count is fatal — the call
returns a non-nil error and the file is never removed; the low-level
variant (src/unnamed/part_001) checks only the error return, so after
a short write it continues from the advanced offset and still deletes
the file at the end. -/
theorem shred_short_write_amended :
    (∀ env fuel out, shredFile env fuel = some out →
      ∀ p pat r n, Ev.wrote p pat r n ∈ out.trace → n ≠ r →
        out.isErr = true ∧ Ev.removed ∉ out.trace) ∧
    (LL.shredFile llShortEnv 9 = some ⟨false, llShortTrace⟩ ∧
      Ev.wrote 0 Pat.ff 2 1 ∈ llShortTrace ∧ Ev.removed ∈ llShortTrace) := by
  refine ⟨?_, by decide, by decide, by decide⟩
  intro env fuel out h p pat r n hm hne
  unfold shredFile at h
  by_cases ho : env.openOk = false
  · rw [if_pos ho] at h
    cases h
    by_cases hrm : env.removeOk = true <;> simp [hrm] at hm
  · rw [if_neg ho] at h
    by_cases hst : env.statOk = false
    · rw [if_pos hst] at h
      cases h
      by_cases hrm : env.removeOk = true <;> simp [hrm] at hm
    · rw [if_neg hst] at h
      by_cases hz : env.size = 0
      · rw [if_pos hz] at h
        by_cases hrm : env.removeOk = true
        · rw [if_pos hrm] at h
          cases h
          simp at hm
        · rw [if_neg hrm] at h
          cases h
          simp at hm
      · rw [if_neg hz] at h
        rcases hp0 : shredPass env 0 0 fuel with _ | ⟨c1, t0, e0⟩
        · rw [hp0] at h; cases h
        · rw [hp0] at h
          have hnr0 := shredPass_no_removed env 0 0 fuel c1 t0 e0 hp0
          cases e0
          · dsimp only at h
            rw [if_neg Bool.false_ne_true] at h
            rcases hp1 : shredPass env 1 c1 fuel with _ | ⟨c2, t1, e1⟩
            · rw [hp1] at h; cases h
            · rw [hp1] at h
              have hnr1 := shredPass_no_removed env 1 c1 fuel c2 t1 e1 hp1
              cases e1
              · dsimp only at h
                rw [if_neg Bool.false_ne_true] at h
                rcases hp2 : shredPass env 2 c2 fuel with _ | ⟨c3, t2, e2⟩
                · rw [hp2] at h; cases h
                · rw [hp2] at h
                  have hnr2 := shredPass_no_removed env 2 c2 fuel c3 t2 e2 hp2
                  have hnoT := no_removed_append3 t0 t1 t2 hnr0 hnr1 hnr2
                  cases e2
                  · dsimp only at h
                    rw [if_neg Bool.false_ne_true] at h
                    by_cases hcl : env.closeOk = false
                    · rw [if_pos hcl] at h
                      cases h
                      exact ⟨rfl, hnoT⟩
                    · rw [if_neg hcl] at h
                      by_cases hrm : env.removeOk = false
                      · rw [if_pos hrm] at h
                        cases h
                        exact ⟨rfl, hnoT⟩
                      · rw [if_neg hrm] at h
                        cases h
                        exfalso
                        rcases List.mem_append.mp hm with hm1 | hm1
                        · rcases List.mem_append.mp hm1 with hm2 | hm2
                          · rcases List.mem_append.mp hm2 with hm3 | hm3
                            · exact hne (shredPass_success_full env 0 0 fuel
                                c1 t0 hp0 p pat r n hm3)
                            · exact hne (shredPass_success_full env 1 c1 fuel
                                c2 t1 hp1 p pat r n hm3)
                          · exact hne (shredPass_success_full env 2 c2 fuel
                              c3 t2 hp2 p pat r n hm2)
                        · simp at hm1
                  · dsimp only at h
                    rw [if_pos rfl] at h
                    cases h
                    exact ⟨rfl, hnoT⟩
              · dsimp only at h
                rw [if_pos rfl] at h
                cases h
                refine ⟨rfl, ?_⟩
                simp [List.mem_append, hnr0, hnr1]
          · dsimp only at h
            rw [if_pos rfl] at h
            cases h
            exact ⟨rfl, hnr0⟩

/-- Witness for C6 at a concrete chaff.go run whose first chunk write
returns 1 of 2 requested bytes: the call errors out with the file
left in place. -/
theorem shred_short_write_amended_witness :
    (⟨true, [Ev.seeked 0, Ev.wrote 0 Pat.ff 2 1]⟩ : ShredOut).isErr = true ∧
      Ev.removed ∉
        (⟨true, [Ev.seeked 0, Ev.wrote 0 Pat.ff 2 1]⟩ : ShredOut).trace :=
  shred_short_write_amended.1 goShortEnv 9
    ⟨true, [Ev.seeked 0, Ev.wrote 0 Pat.ff 2 1]⟩ (by decide) 0 Pat.ff 2 1
    (by decide) (by decide)

/-- Counterexample to C6 as stated: the low-level shredFile cited by
the claim receives a chunk write returning 1 of 2 requested bytes,
yet finishes with a nil error and removes the file. -/
theorem ll_shred_short_write_continues :
    LL.shredFile llShortEnv 9 = some ⟨false, llShortTrace⟩ ∧
      Ev.wrote 0 Pat.ff 2 1 ∈ llShortTrace ∧ (1 : Nat) ≠ 2 ∧
      Ev.removed ∈ llShortTrace :=
  ⟨by decide, by decide, by decide, by decide⟩

/-- C8 (code bug in the low-level variant): when readUrandom fails,
part_001's shredFile ignores the error (line 191), writes the stale
all-0x00 buffer as its "random" pass, makes no random draw at all,
removes the file and returns nil instead of aborting with the error. -/
theorem ll_shred_entropy_ignored :
    LL.shredFile llEntropyFailEnv 9 = some ⟨false, llStaleTrace⟩ ∧
      Ev.wrote 2 Pat.zero 5 5 ∈ llStaleTrace ∧
      rndIdxs llStaleTrace = [] ∧ Ev.removed ∈ llStaleTrace :=
  ⟨by decide, by decide, by decide, by decide⟩

theorem okFillEnv_allOk : okFillEnv.allOk := fun _ => okGenEnv_allOk

/-- Invariant carried by the fill loop: every created-list entry has
a positive byte count. -/
theorem fillLoop_created_pos (env : FillEnv) :
    ∀ fuel avail count created out,
      (∀ pr ∈ created, 0 < pr.2) →
      fillLoop env fuel avail count created = some out →
      ∀ pr ∈ out.created, 0 < pr.2 := by
  intro fuel
  induction fuel with
  | zero => intro avail count created out hinv h; simp [fillLoop] at h
  | succ fuel ih =>
    intro avail count created out hinv h
    by_cases h0 : avail = 0
    · simp only [fillLoop, if_pos h0, Option.some.injEq] at h
      rw [← h]
      exact hinv
    · simp only [fillLoop, if_neg h0] at h
      by_cases hlow : avail < lowSpace
      · rw [if_pos hlow] at h
        rcases hg : generateChaffFile (env.gen count) (avail + 1) 1 avail
          with _ | out'
        · rw [hg] at h; cases h
        · rw [hg] at h
          dsimp only at h
          simp only [Option.some.injEq] at h
          rw [← h]
          by_cases hc : out'.isErr = false ∧ 0 < out'.written
          · rw [if_pos hc]
            intro pr hpr
            rcases List.mem_append.mp hpr with hpr | hpr
            · exact hinv pr hpr
            · rcases List.mem_singleton.mp hpr with rfl
              exact hc.2
          · rw [if_neg hc]
            exact hinv
      · rw [if_neg hlow] at h
        rcases hg : generateChaffFile (env.gen count) (avail + 1) fileSizeMB avail
          with _ | out'
        · rw [hg] at h; cases h
        · rw [hg] at h
          dsimp only at h
          by_cases he : out'.isErr = true
          · rw [if_pos he] at h
            exact ih avail (count + 1) created out hinv h
          · rw [if_neg he] at h
            refine ih out'.remaining (count + 1) _ out ?_ h
            by_cases hw : 0 < out'.written
            · rw [if_pos hw]
              intro pr hpr
              rcases List.mem_append.mp hpr with hpr | hpr
              · exact hinv pr hpr
              · rcases List.mem_singleton.mp hpr with rfl
                exact hw
            · rw [if_neg hw]
              exact hinv

/-- C7: the created-file list of the fill loop contains only entries
whose reported bytes written are strictly positive: zero-byte
attempts (regular or final) are never appended, hence never handed
to the shredder (chaff.go lines 244-249, 263-266). -/
theorem created_files_positive (env : FillEnv) (fuel a : Nat) (out : FillOut)
    (h : fillRun env fuel a = some out) :
    ∀ pr ∈ out.created, 0 < pr.2 :=
  fillLoop_created_pos env fuel a 0 [] out (by simp) h

/-- Witness for C7: a 5-byte run creates exactly the final sentinel
entry, and its byte count 5 is strictly positive. -/
theorem created_files_positive_witness :
    0 < ((FileName.final, 5) : FileName × Nat).2 :=
  created_files_positive okFillEnv 2 5 ⟨0, 0, [(FileName.final, 5)]⟩ (by decide)
    (FileName.final, 5) (by decide)

/-- One-step unfolding of the fill loop, stated as a plain equation
so a single loop iteration can be exposed without unfolding the
recursive occurrences. -/
theorem fillLoop_succ (env : FillEnv) (fuel avail count : Nat)
    (created : List (FileName × Nat)) :
    fillLoop env (fuel + 1) avail count created =
      if avail = 0 then some ⟨avail, count, created⟩
      else if avail < lowSpace then
        match generateChaffFile (env.gen count) (avail + 1) 1 avail with
        | none => none
        | some out =>
          some ⟨out.remaining, count,
            if out.isErr = false ∧ 0 < out.written then
              created ++ [(FileName.final, out.written)]
            else created⟩
      else
        match generateChaffFile (env.gen count) (avail + 1) fileSizeMB avail with
        | none => none
        | some out =>
          if out.isErr then fillLoop env fuel avail (count + 1) created
          else
            fillLoop env fuel out.remaining (count + 1)
              (if 0 < out.written then
                created ++ [(FileName.numbered count, out.written)]
              else created) := rfl

/-- C4 (amended): when the re-probed available space is strictly
below the 10 MiB threshold (at exactly 10 MiB the numbered branch
still runs), the controller makes exactly one final attempt under the
sentinel name and breaks, requesting 1 MB, so the final file's size is
min(1 MiB, remaining) — not the whole remainder — and the counter is
not advanced (chaff.go lines 240-252). -/
theorem fill_final_chunk_amended (env : FillEnv) (h : env.allOk)
    (a fuel : Nat) (ha0 : 0 < a) (halow : a < lowSpace) :
    fillRun env (fuel + 1) a =
      some ⟨a - min 1048576 a, 0, [(FileName.final, min 1048576 a)]⟩ := by
  have hmod : (1 * 1024 * 1024) % U64 = 1048576 := by decide
  have hgen := generateChaffFile_allOk (env.gen 0) (h 0) (a + 1) 1 a
    (by rw [hmod]; omega)
  rw [hmod] at hgen
  have hm0 : 0 < min 1048576 a := by omega
  show fillLoop env (fuel + 1) a 0 [] = _
  rw [fillLoop_succ, if_neg (by omega : ¬ a = 0), if_pos halow, hgen]
  dsimp only
  rw [if_pos ⟨rfl, hm0⟩]
  rfl

/-- Witness for C4 at 8 MiB available: the final sentinel file gets
min(1 MiB, 8 MiB) = 1 MiB, leaving 7 MiB. -/
theorem fill_final_chunk_amended_witness :
    fillRun okFillEnv 2 8388608 =
      some ⟨7340032, 0, [(FileName.final, 1048576)]⟩ := by
  have h : fillRun okFillEnv 2 8388608 =
      some ⟨8388608 - min 1048576 8388608, 0,
        [(FileName.final, min 1048576 8388608)]⟩ :=
    fill_final_chunk_amended okFillEnv okFillEnv_allOk 8388608 1
      (by decide) (by decide)
  rw [h]
  decide

/-- Counterexample to C4 as stated: with 8 MiB available the final
sentinel file is written with 1 MiB, not the whole remaining 8 MiB;
and at exactly 10 MiB available (at the threshold) the loop still
creates a numbered file, not the sentinel. -/
theorem fill_final_chunk_counterexample :
    (fillRun okFillEnv 2 8388608 =
        some ⟨7340032, 0, [(FileName.final, 1048576)]⟩ ∧
      (1048576 : Nat) ≠ 8388608) ∧
    (fillRun okFillEnv 3 10485760 =
        some ⟨0, 1, [(FileName.numbered 0, 10485760)]⟩ ∧
      ∀ pr ∈ [((FileName.numbered 0 : FileName), (10485760 : Nat))],
        pr.1 ≠ FileName.final) := by
  refine ⟨⟨by decide, by decide⟩, by decide, by decide⟩

/-- With every generator call succeeding, the fill loop started below
k·lowSpace finishes within k+1 iterations, ending under the
threshold: each regular iteration removes min(100 MiB, available) ≥
lowSpace bytes, and the final branch or exhaustion ends the loop. -/
theorem fillLoop_allOk_done (env : FillEnv) (h : env.allOk) :
    ∀ k a count created, a < k * lowSpace →
      ∃ out, fillLoop env (k + 1) a count created = some out ∧
        out.available < lowSpace := by
  intro k
  induction k with
  | zero => intro a count created ha; rw [Nat.zero_mul] at ha; omega
  | succ k ih =>
    intro a count created ha
    have hl : lowSpace = 10485760 := rfl
    by_cases h0 : a = 0
    · refine ⟨⟨a, count, created⟩, ?_, by show a < lowSpace; omega⟩
      rw [fillLoop_succ, if_pos h0]
    · by_cases hlow : a < lowSpace
      · have hmod : (1 * 1024 * 1024) % U64 = 1048576 := by decide
        have hgen := generateChaffFile_allOk (env.gen count) (h count)
          (a + 1) 1 a (by rw [hmod]; omega)
        rw [hmod] at hgen
        have hstep : ∃ cr, fillLoop env (k + 1 + 1) a count created =
            some ⟨a - min 1048576 a, count, cr⟩ := by
          rw [fillLoop_succ, if_neg h0, if_pos hlow, hgen]
          exact ⟨_, rfl⟩
        obtain ⟨cr, hstep⟩ := hstep
        refine ⟨⟨a - min 1048576 a, count, cr⟩, hstep, ?_⟩
        show a - min 1048576 a < lowSpace
        omega
      · have hmod : (100 * 1024 * 1024) % U64 = 104857600 := by decide
        have hgen := generateChaffFile_allOk (env.gen count) (h count)
          (a + 1) 100 a (by rw [hmod]; omega)
        rw [hmod] at hgen
        obtain ⟨out, hrec, hav⟩ := ih (a - min 104857600 a) (count + 1)
          (if 0 < min 104857600 a then
            created ++ [(FileName.numbered count, min 104857600 a)]
          else created)
          (by rw [hl] at ha ⊢; omega)
        refine ⟨out, ?_, hav⟩
        rw [fillLoop_succ, if_neg h0, if_neg hlow,
          show fileSizeMB = 100 from rfl, hgen]
        dsimp only
        rw [if_neg Bool.false_ne_true]
        exact hrec

/-- C10: assuming every generateChaffFile call returns without error,
the fill loop of main terminates — started from any available space a
it reaches, within a/lowSpace + 2 iterations, a normal exit whose
tracked available space is below the 10 MiB threshold, because every
regular iteration strictly decreases the space by
min(100 MiB, available) ≥ 10 MiB and the final branch breaks
(chaff.go lines 236-276). -/
theorem fill_terminates (env : FillEnv) (h : env.allOk) (a : Nat) :
    ∃ out, fillRun env (a / lowSpace + 2) a = some out ∧
      out.available < lowSpace := by
  have hbound : a < (a / lowSpace + 1) * lowSpace := by
    have h1 := Nat.div_add_mod a lowSpace
    have h2 : a % lowSpace < lowSpace := Nat.mod_lt _ (by decide)
    have h3 : (a / lowSpace + 1) * lowSpace =
        lowSpace * (a / lowSpace) + lowSpace := by ring
    omega
  exact fillLoop_allOk_done env h (a / lowSpace + 1) a 0 [] hbound

/-- Witness for C10: the 25 MiB scenario of the spec finishes with a
single numbered file and 0 bytes left, under the threshold. -/
theorem fill_terminates_witness :
    ∃ out, fillRun okFillEnv (26214400 / lowSpace + 2) 26214400 = some out ∧
      out.available < lowSpace :=
  fill_terminates okFillEnv okFillEnv_allOk 26214400

end MakeChaff
